import Mathlib

/-!
Verification of the batching core of `pipeline/batch.go` (file.d).

The Go source is shallowly embedded: Go `int`/`int64` become `Int`
(no arithmetic here comes near overflow), `time.Time`/`time.Duration`
become `Int` instants/spans (nanoseconds), and wall-clock reads
(`time.Now()`, `time.Since`) become an explicit `now : Int` parameter.
Fatal errors (`logger.Fatalf`, which never returns) and Go runtime
panics (out-of-range slice indexing) are modelled by `Option`, `none`
meaning "does not return normally".
-/

namespace FileD

/-- An event, as consumed by the batching core: `Size` is the event's
byte size (`Event.Size int` in Go) and `IsChildParentKind` is the
structural predicate the batch iterator skips on
(`event.IsChildParentKind()` in Go). -/
structure Event where
  Size : Int
  IsChildParentKind : Bool
deriving DecidableEq, Repr

/-- The `Batch` struct of `pipeline/batch.go`: `events` slice,
`iteratorIndex`, running byte size `eventsSize`, seal sequence number
`seq`, flush `timeout`, `startTime` of the last reset, and the two
immutable limits `maxSizeCount` / `maxSizeBytes`. -/
structure Batch where
  events : List Event
  iteratorIndex : Int
  eventsSize : Int
  seq : Int
  timeout : Int
  startTime : Int
  maxSizeCount : Int
  maxSizeBytes : Int
deriving DecidableEq, Repr

/-- `(*Batch).reset`: truncate `events`, set `iteratorIndex = -1`,
`eventsSize = 0`, `startTime = time.Now()` (the explicit `now`).
`seq` and the configuration fields are untouched. -/
def Batch.reset (b : Batch) (now : Int) : Batch :=
  { b with events := [], iteratorIndex := -1, eventsSize := 0, startTime := now }

/-- `NewPreparedBatch(events)`: a zero-value `Batch`, `reset()`, then
`b.events = events`. Note the assignment happens after the reset, so
`eventsSize` is left at 0 whatever `events` holds. -/
def NewPreparedBatch (events : List Event) (now : Int) : Batch :=
  { Batch.reset
      { events := [], iteratorIndex := 0, eventsSize := 0, seq := 0,
        timeout := 0, startTime := 0, maxSizeCount := 0, maxSizeBytes := 0 } now
    with events := events }

/-- `newBatch(maxSizeCount, maxSizeBytes, timeout)`: the three
`logger.Fatalf` guards become `none`; otherwise the freshly allocated
batch after its `reset()`. -/
def newBatch (maxSizeCount maxSizeBytes timeout now : Int) : Option Batch :=
  if maxSizeCount < 0 then none
  else if maxSizeBytes < 0 then none
  else if maxSizeCount = 0 ∧ maxSizeBytes = 0 then none
  else some (Batch.reset
    { events := [], iteratorIndex := 0, eventsSize := 0, seq := 0,
      timeout := timeout, startTime := 0,
      maxSizeCount := maxSizeCount, maxSizeBytes := maxSizeBytes } now)

/-- `(*Batch).append(e)`: push the event and add its size. -/
def Batch.append (b : Batch) (e : Event) : Batch :=
  { b with events := b.events ++ [e], eventsSize := b.eventsSize + e.Size }

/-- `(*Batch).isReady()`:
`isFull := (maxSizeCount != 0 && l >= maxSizeCount) || (maxSizeBytes != 0 && maxSizeBytes <= eventsSize)`;
`isTimeout := l > 0 && time.Since(startTime) > timeout`; result
`isFull || isTimeout`. `time.Since(startTime)` is `now - startTime`. -/
def Batch.isReady (b : Batch) (now : Int) : Bool :=
  let l : Int := (b.events.length : Int)
  ((b.maxSizeCount != 0 && decide (b.maxSizeCount ≤ l))
      || (b.maxSizeBytes != 0 && decide (b.maxSizeBytes ≤ b.eventsSize)))
    || (decide (0 < l) && decide (b.timeout < now - b.startTime))

/-- Count of leading events satisfying `IsChildParentKind`.  Used to
express the skip loop of `(*Batch).Next` structurally. -/
def leadStruct : List Event → Nat
  | [] => 0
  | e :: rest => if e.IsChildParentKind then leadStruct rest + 1 else 0

/-- The final value of `b.iteratorIndex` after the `for` loop of
`(*Batch).Next` that starts at index `i`: the first index `j ≥ i`
holding a non-structural event, or the first out-of-bounds index
reached while skipping (which is `i` itself when `i ≥ length`). -/
def scanFrom (events : List Event) (i : Nat) : Nat :=
  i + leadStruct (events.drop i)

/-- `(*Batch).Next()`: `iteratorIndex++`, then skip structural events
while in bounds; returns `iteratorIndex < len(events)`.  If the
incremented index is negative the loop body would index the slice at a
negative position and panic, hence `none` (unreachable from any state
with `iteratorIndex ≥ -1`). -/
def Batch.next (b : Batch) : Option (Batch × Bool) :=
  if b.iteratorIndex + 1 < 0 then none
  else
    let j := scanFrom b.events (b.iteratorIndex + 1).toNat
    some ({ b with iteratorIndex := (j : Int) }, decide (j < b.events.length))

/-- `(*Batch).Value()`: `b.events[b.iteratorIndex]` with no bounds
check; an out-of-range index panics in Go, modelled as `none`. -/
def Batch.value (b : Batch) : Option Event :=
  if b.iteratorIndex < 0 then none
  else b.events[b.iteratorIndex.toNat]?

/-- The canonical iteration loop over a batch
(`for b.Next() { v := b.Value() ... }`), collecting the values, with
explicit fuel; `events.length + 1` fuel always suffices from a
freshly reset cursor. -/
def Batch.drain (b : Batch) : Nat → List Event
  | 0 => []
  | Nat.succ fuel =>
    match b.next with
    | none => []
    | some (_, false) => []
    | some (b2, true) =>
      match b2.value with
      | none => []
      | some e => e :: b2.drain fuel

/-- An operation on a single batch, for stating state invariants over
arbitrary call sequences. -/
inductive BatchOp where
  | reset (now : Int)
  | append (e : Event)
  | next
deriving DecidableEq, Repr

/-- Apply one operation; `none` propagates a panic from `next`. -/
def applyOp (ob : Option Batch) (op : BatchOp) : Option Batch :=
  match ob, op with
  | none, _ => none
  | some b, BatchOp.reset now => some (b.reset now)
  | some b, BatchOp.append e => some (b.append e)
  | some b, BatchOp.next => (b.next).map Prod.fst

/-- Run a sequence of batch operations. -/
def runOps (ob : Option Batch) (ops : List BatchOp) : Option Batch :=
  ops.foldl applyOp ob

/-- Sum of event sizes, the quantity `eventsSize` is meant to track. -/
def sumSizes (evs : List Event) : Int :=
  (evs.map Event.Size).sum

/-- Decidable form of the cursor invariant claimed in the spec:
`-1 ≤ iteratorIndex ≤ len(events)`. -/
def cursorInvB (b : Batch) : Bool :=
  decide (-1 ≤ b.iteratorIndex) && decide (b.iteratorIndex ≤ (b.events.length : Int))

/-!
Admission side of the `Batcher` (`Add`, `heartbeat`, `getBatch`,
`trySendBatchAndUnlock`).  Both `Add` and the heartbeat body run
entirely under `b.mu`, so each is one atomic step of the model.  All
pooled batches are created by `newBatch` with the same configuration
and are fully re-initialised by `reset()` in `getBatch` (only `seq`
and the immutable configuration survive a reset, and `seq` is
overwritten at seal time), so drawing from `freeBatches` is modelled
as producing a fresh reset batch of the fixed configuration; the pool
bound only delays producers and is not needed for the claims below.
-/

/-- One serialised entry into the admission critical section: an
`Add(event)` call or one heartbeat tick, each at wall-clock `now`. -/
inductive AdmOp where
  | add (e : Event) (now : Int)
  | tick (now : Int)
deriving DecidableEq, Repr

/-- Admission-visible `Batcher` state: the open batch (`b.batch`,
`none` meaning the next `getBatch` draws from the pool), the next
sequence number `outSeq`, and the batches sent to `fullBatches` in
send order. -/
structure AdmState where
  openB : Option Batch
  outSeq : Int
  sealedB : List Batch
deriving DecidableEq, Repr

/-- A batch as it comes out of `freeBatches` and through the `reset()`
in `getBatch`: empty, cursor `-1`, zero size, the fixed configuration. -/
def freshBatch (mc mb tmo now : Int) : Batch :=
  Batch.reset
    { events := [], iteratorIndex := 0, eventsSize := 0, seq := 0,
      timeout := tmo, startTime := 0, maxSizeCount := mc, maxSizeBytes := mb } now

/-- `(*Batcher).getBatch()`: reuse `b.batch` if present, else draw a
batch from the pool and `reset()` it. -/
def getBatch (mc mb tmo : Int) (s : AdmState) (now : Int) : Batch :=
  match s.openB with
  | some b => b
  | none => freshBatch mc mb tmo now

/-- `(*Batcher).trySendBatchAndUnlock(batch)`: if the batch is not
ready keep it open; otherwise assign `batch.seq = outSeq`, increment
`outSeq`, clear `b.batch` and send the batch on `fullBatches`. -/
def trySendBatchAndUnlock (s : AdmState) (b : Batch) (now : Int) : AdmState :=
  if b.isReady now then
    { openB := none, outSeq := s.outSeq + 1,
      sealedB := s.sealedB ++ [{ b with seq := s.outSeq }] }
  else
    { s with openB := some b }

/-- One admission step: `Add` appends then tries to seal; a heartbeat
tick only ensures an open batch exists and tries to seal it. -/
def admStep (mc mb tmo : Int) (s : AdmState) (op : AdmOp) : AdmState :=
  match op with
  | AdmOp.add e now => trySendBatchAndUnlock s ((getBatch mc mb tmo s now).append e) now
  | AdmOp.tick now => trySendBatchAndUnlock s (getBatch mc mb tmo s now) now

/-- `Batcher` state right after `Start`: no open batch, `outSeq = 0`
(Go zero value), nothing sent to `fullBatches` yet. -/
def admInit : AdmState := { openB := none, outSeq := 0, sealedB := [] }

/-- Run a sequence of admission steps from the initial state. -/
def runAdm (mc mb tmo : Int) (ops : List AdmOp) : AdmState :=
  ops.foldl (admStep mc mb tmo) admInit

/-- Decidable size hypothesis on one admission operation: events handed
to `Add` have non-negative `Size` (the spec's contract on `Event.Size`). -/
def admOpSizeOK : AdmOp → Bool
  | AdmOp.add e _ => decide (0 ≤ e.Size)
  | AdmOp.tick _ => true

/-- The integers `0, 1, …, n-1` as a list (empty for `n ≤ 0`). -/
def rangeInt (n : Int) : List Int :=
  (List.range n.toNat).map Int.ofNat

/-!
The sequenced-commit gate of `(*Batcher).commitBatch`.  The section
from passing the `for b.commitSeq != batchSeq { b.cond.Wait() }` loop
through `b.commitSeq++`, the `Controller.Commit` loop and
`b.cond.Broadcast()` runs entirely under `b.seqMu` (`cond.Wait`
re-acquires `seqMu` before the loop condition is re-checked), so a
whole gate passage is one atomic step with respect to the other
workers.
-/

/-- Gate state: the shared `commitSeq` counter, the seqs of sealed
batches currently held by workers that have not committed yet, and the
seqs whose commit sections have completed, in completion order. -/
structure GateState where
  commitSeq : Int
  pending : List Int
  history : List Int
deriving DecidableEq, Repr

/-- One gate passage: a worker holding a pending batch with sequence
number `q` passes the wait loop exactly when `commitSeq = q`, runs its
commit section and increments `commitSeq`. -/
inductive GateStep : GateState → Int → GateState → Prop where
  | commit (s : GateState) (q : Int) (hq : q ∈ s.pending) (hpass : s.commitSeq = q) :
      GateStep s q
        { commitSeq := s.commitSeq + 1, pending := s.pending.erase q,
          history := s.history ++ [q] }

/-- Reachability of gate states by repeated gate passages. -/
inductive GateReach (init : GateState) : GateState → Prop where
  | refl : GateReach init init
  | step {s t : GateState} {q : Int} :
      GateReach init s → GateStep s q t → GateReach init t

/-- The primitive actions `commitBatch` performs, in program order:
passing the wait loop at the batch's seq, `commitSeq++`, one
`Controller.Commit` per event, `cond.Broadcast()`, and sending the
batch back on `freeBatches`. -/
inductive CAction where
  | waitPass (q : Int)
  | incSeq
  | commitEv (e : Event)
  | broadcast
  | toFree
deriving DecidableEq, Repr

/-- Worker-shared state touched by a single `commitBatch` call:
`commitSeq`, the log of `Controller.Commit(event)` calls, and the
`freeBatches` queue contents. -/
structure CommitState where
  commitSeq : Int
  committed : List Event
  free : List Batch
deriving DecidableEq, Repr

/-- `(*Batcher).commitBatch(events, batch)`: swap the local `events`
slice with `batch.events`; wait until `commitSeq` equals `batch.seq`
(`none` models a caller blocked in the wait loop); then `commitSeq++`,
commit every event of the batch in order, broadcast, and push the
batch (now carrying the old local slice) onto `freeBatches`.  Returns
the new state, the slice handed back to the worker loop, and the trace
of actions in program order. -/
def commitBatch (s : CommitState) (events : List Event) (batch : Batch) :
    Option (CommitState × List Event × List CAction) :=
  if s.commitSeq = batch.seq then
    let evs := batch.events
    let batch2 := { batch with events := events }
    some ({ commitSeq := s.commitSeq + 1,
            committed := s.committed ++ evs,
            free := s.free ++ [batch2] },
          evs,
          CAction.waitPass batch.seq :: CAction.incSeq ::
            (evs.map CAction.commitEv) ++ [CAction.broadcast, CAction.toFree])
  else none

/-- Whether an action is a `Controller.Commit` call. -/
def isCommitEv : CAction → Bool
  | CAction.commitEv _ => true
  | _ => false

/-- The ordering asserted by the spec for `commitBatch`: every
`Controller.Commit` call precedes the `commitSeq` increment in the
trace. -/
def commitsBeforeInc (tr : List CAction) : Prop :=
  ∀ (i j : Fin tr.length), tr.get i = CAction.incSeq →
    isCommitEv (tr.get j) = true → (j : Nat) < (i : Nat)

/-! Helper lemmas. -/

/-- Propositional reading of `(*Batch).isReady()`, exactly as the code
computes it (`!= 0` tests, not `> 0` tests). -/
theorem isReady_true_iff (b : Batch) (now : Int) :
    b.isReady now = true ↔
      (b.maxSizeCount ≠ 0 ∧ b.maxSizeCount ≤ (b.events.length : Int)) ∨
      (b.maxSizeBytes ≠ 0 ∧ b.maxSizeBytes ≤ b.eventsSize) ∨
      (0 < (b.events.length : Int) ∧ b.timeout < now - b.startTime) := by
  simp only [Batch.isReady, Bool.or_eq_true, Bool.and_eq_true, bne_iff_ne,
    decide_eq_true_eq]
  tauto

/-! Claim theorems. -/

/-- C8: `newBatch` raises a fatal, non-recoverable error (modelled as
`none`) and never returns a batch exactly when the configuration is
invalid, i.e. `maxSizeCount < 0`, `maxSizeBytes < 0`, or both limits
equal to `0`; for every valid configuration it returns normally. -/
theorem newBatch_fatal_iff (mc mb tmo now : Int) :
    newBatch mc mb tmo now = none ↔ (mc < 0 ∨ mb < 0 ∨ (mc = 0 ∧ mb = 0)) := by
  unfold newBatch
  split_ifs with h1 h2 h3 <;> simp <;> omega

/-- C5: for every batch whose configuration fields are non-negative
(as construction validates), `isReady` returns true iff
`(maxCount > 0 ∧ len ≥ maxCount) ∨ (maxBytes > 0 ∧ bytes ≥ maxBytes) ∨
(len > 0 ∧ now − startTime > timeout)`; in particular a batch with
zero events (hence zero accumulated bytes) is never ready, whatever
its age. -/
theorem isReady_spec (b : Batch) (now : Int)
    (hmc : 0 ≤ b.maxSizeCount) (hmb : 0 ≤ b.maxSizeBytes) :
    (b.isReady now = true ↔
      (0 < b.maxSizeCount ∧ b.maxSizeCount ≤ (b.events.length : Int)) ∨
      (0 < b.maxSizeBytes ∧ b.maxSizeBytes ≤ b.eventsSize) ∨
      (0 < (b.events.length : Int) ∧ b.timeout < now - b.startTime)) ∧
    (b.events = [] → b.eventsSize = 0 → b.isReady now = false) := by
  constructor
  · rw [isReady_true_iff]
    omega
  · intro hev hsz
    rw [← Bool.not_eq_true, isReady_true_iff, hev, hsz]
    simp only [List.length_nil, Nat.cast_zero]
    omega

/-- Concrete instance discharging `isReady_spec`'s hypotheses: a batch
with `maxSizeCount = 1` holding one event is ready. -/
def bC5 : Batch :=
  { events := [{ Size := 1, IsChildParentKind := false }], iteratorIndex := -1,
    eventsSize := 1, seq := 0, timeout := 5, startTime := 0,
    maxSizeCount := 1, maxSizeBytes := 0 }

theorem isReady_spec_witness : bC5.isReady 0 = true :=
  (isReady_spec bC5 0 (by decide) (by decide)).1.mpr (Or.inl (by decide))

/-- `Next` only moves the cursor: `events` and `eventsSize` are
untouched, the new cursor is the scan result, and the returned flag is
the in-bounds test on it. -/
theorem next_fields {b b2 : Batch} {r : Bool} (h : b.next = some (b2, r)) :
    b2.events = b.events ∧ b2.eventsSize = b.eventsSize ∧
    b2.iteratorIndex = ((scanFrom b.events (b.iteratorIndex + 1).toNat : Nat) : Int) ∧
    r = decide (scanFrom b.events (b.iteratorIndex + 1).toNat < b.events.length) := by
  unfold Batch.next at h
  by_cases hneg : b.iteratorIndex + 1 < 0
  · rw [if_pos hneg] at h; exact absurd h (by simp)
  · rw [if_neg hneg] at h
    simp only [Option.some.injEq, Prod.mk.injEq] at h
    obtain ⟨hb, hr⟩ := h
    subst hb
    exact ⟨rfl, rfl, rfl, hr.symm⟩

/-- Running a batch-op sequence from a dead (panicked) state stays dead. -/
theorem runOps_none (ops : List BatchOp) : runOps none ops = none := by
  induction ops with
  | nil => rfl
  | cons op rest ih => simpa [runOps, applyOp] using ih

/-- The `bytes == Σ Size` invariant is preserved by every sequence of
`reset`, `append` and `Next` operations. -/
theorem runOps_sumSizes (ops : List BatchOp) :
    ∀ b : Batch, b.eventsSize = sumSizes b.events →
      ∀ b2 : Batch, runOps (some b) ops = some b2 →
        b2.eventsSize = sumSizes b2.events := by
  induction ops with
  | nil => intro b hb b2 h2; cases h2; exact hb
  | cons op rest ih =>
    intro b hb b2 h2
    cases op with
    | reset now =>
      refine ih (b.reset now) ?_ b2 h2
      simp [Batch.reset, sumSizes]
    | append e =>
      refine ih (b.append e) ?_ b2 h2
      simp [Batch.append, sumSizes, hb]
    | next =>
      rcases hnx : b.next with _ | ⟨b', r⟩
      · rw [show runOps (some b) (BatchOp.next :: rest) = runOps none rest by
          simp [runOps, applyOp, hnx], runOps_none] at h2
        exact absurd h2 (by simp)
      · have hfld := next_fields hnx
        refine ih b' ?_ b2 ?_
        · rw [hfld.1, hfld.2.1]; exact hb
        · simpa [runOps, applyOp, hnx] using h2

/-- C2 (amended): for every batch constructed by `newBatch` and every
sequence of `reset`, `append` (and `Next`) operations on it, the
`eventsSize` field equals the sum of `Size` over the events currently
held.  (`NewPreparedBatch` is excluded: see the counterexample.) -/
theorem bytes_inv_newBatch (mc mb tmo now : Int) (b : Batch)
    (hb : newBatch mc mb tmo now = some b) (ops : List BatchOp) (b2 : Batch)
    (h2 : runOps (some b) ops = some b2) :
    b2.eventsSize = sumSizes b2.events := by
  refine runOps_sumSizes ops b ?_ b2 h2
  unfold newBatch at hb
  split_ifs at hb
  cases hb
  simp [Batch.reset, sumSizes]

/-- C2 (counterexample): a batch built by `NewPreparedBatch` from one
event of size 1 has `eventsSize = 0`, not the events' size sum:
`NewPreparedBatch` assigns the events after `reset()` zeroed the
running sum. -/
theorem bytes_inv_prepared_cex :
    (NewPreparedBatch [{ Size := 1, IsChildParentKind := false }] 0).eventsSize ≠
      sumSizes (NewPreparedBatch [{ Size := 1, IsChildParentKind := false }] 0).events := by
  decide

/-- A batch as returned by `newBatch 3 0 5 0`. -/
def bN : Batch :=
  { events := [], iteratorIndex := -1, eventsSize := 0, seq := 0, timeout := 5,
    startTime := 0, maxSizeCount := 3, maxSizeBytes := 0 }

theorem bytes_inv_newBatch_witness :
    (bN.append { Size := 2, IsChildParentKind := false }).eventsSize =
      sumSizes (bN.append { Size := 2, IsChildParentKind := false }).events :=
  bytes_inv_newBatch 3 0 5 0 bN (by decide)
    [BatchOp.append { Size := 2, IsChildParentKind := false }]
    (bN.append { Size := 2, IsChildParentKind := false }) (by decide)

/-- The leading-structural count never exceeds the list length. -/
theorem leadStruct_le (l : List Event) : leadStruct l ≤ l.length := by
  induction l with
  | nil => simp [leadStruct]
  | cons a rest ih =>
    by_cases ha : a.IsChildParentKind
    · simp [leadStruct, ha]; omega
    · simp [leadStruct, ha]

/-- The element right after the leading structural run, if any, is
non-structural. -/
theorem leadStruct_getElem? (l : List Event) (e : Event)
    (h : l[leadStruct l]? = some e) : e.IsChildParentKind = false := by
  induction l with
  | nil => simp at h
  | cons a rest ih =>
    by_cases ha : a.IsChildParentKind
    · rw [show leadStruct (a :: rest) = leadStruct rest + 1 by
        simp [leadStruct, ha]] at h
      exact ih (by simpa using h)
    · rw [show leadStruct (a :: rest) = 0 by simp [leadStruct, ha]] at h
      simp only [List.getElem?_cons_zero, Option.some.injEq] at h
      subst h
      exact Bool.not_eq_true _ ▸ ha

/-- Dropping the leading structural run does not change the
non-structural filtrate. -/
theorem leadStruct_filter (l : List Event) :
    l.filter (fun e => !e.IsChildParentKind) =
      (l.drop (leadStruct l)).filter (fun e => !e.IsChildParentKind) := by
  induction l with
  | nil => rfl
  | cons a rest ih =>
    by_cases ha : a.IsChildParentKind
    · rw [show leadStruct (a :: rest) = leadStruct rest + 1 by simp [leadStruct, ha]]
      rw [List.filter_cons_of_neg (by simp [ha])]
      simpa using ih
    · rw [show leadStruct (a :: rest) = 0 by simp [leadStruct, ha], List.drop_zero]

/-- The scan starting point never moves backwards. -/
theorem scanFrom_ge (evs : List Event) (i : Nat) : i ≤ scanFrom evs i :=
  Nat.le_add_right i _

/-- Starting in bounds, the scan stops in bounds or at `length`. -/
theorem scanFrom_le (evs : List Event) (i : Nat) (h : i ≤ evs.length) :
    scanFrom evs i ≤ evs.length := by
  have h1 := leadStruct_le (evs.drop i)
  rw [List.length_drop] at h1
  unfold scanFrom
  omega

/-- Scanning from a position at or past the end stays put. -/
theorem scanFrom_past (evs : List Event) (i : Nat) (h : evs.length ≤ i) :
    scanFrom evs i = i := by
  unfold scanFrom
  rw [List.drop_eq_nil_of_le h]
  simp [leadStruct]

/-- The event at the scan's stopping index, if any, is non-structural. -/
theorem scanFrom_getElem? (evs : List Event) (i : Nat) (e : Event)
    (h : evs[scanFrom evs i]? = some e) : e.IsChildParentKind = false := by
  refine leadStruct_getElem? (evs.drop i) e ?_
  rw [List.getElem?_drop]
  exact h

/-- The non-structural filtrate of the suffix is unchanged by
advancing the suffix start to the scan's stopping index. -/
theorem scanFrom_filter (evs : List Event) (i : Nat) :
    (evs.drop i).filter (fun e => !e.IsChildParentKind) =
      (evs.drop (scanFrom evs i)).filter (fun e => !e.IsChildParentKind) := by
  rw [leadStruct_filter (evs.drop i), List.drop_drop]
  rfl

/-- `Next` on a cursor `≥ -1` never panics; its explicit result. -/
theorem next_eq (b : Batch) (h : -1 ≤ b.iteratorIndex) :
    b.next = some
      ({ b with iteratorIndex :=
          ((scanFrom b.events (b.iteratorIndex + 1).toNat : Nat) : Int) },
        decide (scanFrom b.events (b.iteratorIndex + 1).toNat < b.events.length)) := by
  unfold Batch.next
  rw [if_neg (by omega)]

/-- Characterisation of the iteration loop: from any cursor `≥ -1`,
with enough fuel, draining yields exactly the non-structural events
strictly after the cursor, in order. -/
theorem drain_spec (fuel : Nat) :
    ∀ b : Batch, -1 ≤ b.iteratorIndex →
      (b.events.length : Int) ≤ b.iteratorIndex + fuel →
      b.drain fuel =
        (b.events.drop (b.iteratorIndex + 1).toNat).filter
          (fun e => !e.IsChildParentKind) := by
  induction fuel with
  | zero =>
    intro b hlo hhi
    rw [List.drop_eq_nil_of_le (by omega)]
    rfl
  | succ fuel ih =>
    rintro ⟨evs, idx, sz, sq, tm, st, mc, mb⟩ hlo hhi
    dsimp only at hlo hhi ⊢
    have hji : (idx + 1).toNat ≤ scanFrom evs (idx + 1).toNat := scanFrom_ge _ _
    have hnx := next_eq ⟨evs, idx, sz, sq, tm, st, mc, mb⟩ hlo
    dsimp only at hnx
    by_cases hlt : scanFrom evs (idx + 1).toNat < evs.length
    · have hnx2 : Batch.next ⟨evs, idx, sz, sq, tm, st, mc, mb⟩ =
          some (⟨evs, ((scanFrom evs (idx + 1).toNat : Nat) : Int), sz, sq, tm,
            st, mc, mb⟩, true) := by
        rw [hnx, decide_eq_true hlt]
      have hval : Batch.value ⟨evs, ((scanFrom evs (idx + 1).toNat : Nat) : Int),
          sz, sq, tm, st, mc, mb⟩ = some (evs[scanFrom evs (idx + 1).toNat]) := by
        unfold Batch.value
        rw [if_neg (by dsimp only; omega)]
        dsimp only
        rw [show (((scanFrom evs (idx + 1).toNat : Nat) : Int)).toNat =
          scanFrom evs (idx + 1).toNat from by omega]
        exact List.getElem?_eq_getElem hlt
      have hstep : Batch.drain ⟨evs, idx, sz, sq, tm, st, mc, mb⟩ (fuel + 1) =
          evs[scanFrom evs (idx + 1).toNat] ::
            Batch.drain ⟨evs, ((scanFrom evs (idx + 1).toNat : Nat) : Int), sz,
              sq, tm, st, mc, mb⟩ fuel := by
        rw [show Batch.drain ⟨evs, idx, sz, sq, tm, st, mc, mb⟩ (fuel + 1) =
            (match Batch.next ⟨evs, idx, sz, sq, tm, st, mc, mb⟩ with
              | none => []
              | some (_, false) => []
              | some (b2, true) =>
                match b2.value with
                | none => []
                | some e => e :: b2.drain fuel) from rfl, hnx2]
        simp only [hval]
      have hdr := ih ⟨evs, ((scanFrom evs (idx + 1).toNat : Nat) : Int), sz, sq,
        tm, st, mc, mb⟩ (by dsimp only; omega) (by dsimp only; push_cast at hhi ⊢; omega)
      dsimp only at hdr
      rw [hstep, hdr,
        show (((scanFrom evs (idx + 1).toNat : Nat) : Int) + 1).toNat =
          scanFrom evs (idx + 1).toNat + 1 from by omega,
        scanFrom_filter evs (idx + 1).toNat, List.drop_eq_getElem_cons hlt,
        List.filter_cons_of_pos]
      have hns := scanFrom_getElem? evs ((idx + 1).toNat)
        (evs[scanFrom evs (idx + 1).toNat]) (List.getElem?_eq_getElem hlt)
      simp [hns]
    · have hnx3 : Batch.next ⟨evs, idx, sz, sq, tm, st, mc, mb⟩ =
          some (⟨evs, ((scanFrom evs (idx + 1).toNat : Nat) : Int), sz, sq, tm,
            st, mc, mb⟩, false) := by
        rw [hnx, decide_eq_false hlt]
      have hstep : Batch.drain ⟨evs, idx, sz, sq, tm, st, mc, mb⟩ (fuel + 1) = [] := by
        rw [show Batch.drain ⟨evs, idx, sz, sq, tm, st, mc, mb⟩ (fuel + 1) =
            (match Batch.next ⟨evs, idx, sz, sq, tm, st, mc, mb⟩ with
              | none => []
              | some (_, false) => []
              | some (b2, true) =>
                match b2.value with
                | none => []
                | some e => e :: b2.drain fuel) from rfl, hnx3]
      rw [hstep, scanFrom_filter evs (idx + 1).toNat,
        List.drop_eq_nil_of_le (by omega)]
      rfl

/-- C7: iterating a batch with `Next`/`Value` from a freshly reset
cursor yields exactly its non-structural events in append order, and
`Next` returns false exactly once the cursor has walked past the end
of the events sequence. -/
theorem iter_skips_structural (b : Batch) (hb : b.iteratorIndex = -1)
    (c c2 : Batch) (r : Bool) (hstep : c.next = some (c2, r)) :
    b.drain (b.events.length + 1) =
      b.events.filter (fun e => !e.IsChildParentKind) ∧
    (r = false ↔ (c.events.length : Int) ≤ c2.iteratorIndex) := by
  constructor
  · have h := drain_spec (b.events.length + 1) b (by omega) (by rw [hb]; push_cast; omega)
    rw [h, hb]
    norm_num
  · have hfld := next_fields hstep
    rw [hfld.2.2.1, hfld.2.2.2]
    simp only [decide_eq_false_iff_not, Nat.not_lt]
    constructor
    · intro hle; exact_mod_cast hle
    · intro hle; exact_mod_cast hle

/-- A three-event batch, [data, structural, data], cursor reset. -/
def bC7 : Batch :=
  { events := [{ Size := 1, IsChildParentKind := false },
               { Size := 2, IsChildParentKind := true },
               { Size := 3, IsChildParentKind := false }],
    iteratorIndex := -1, eventsSize := 6, seq := 0, timeout := 5,
    startTime := 0, maxSizeCount := 5, maxSizeBytes := 0 }

theorem iter_skips_structural_witness :
    bC7.drain 4 = [{ Size := 1, IsChildParentKind := false },
                   { Size := 3, IsChildParentKind := false }] ∧
    ((true : Bool) = false ↔ (3 : Int) ≤ (0 : Int)) :=
  iter_skips_structural bC7 rfl bC7
    { bC7 with iteratorIndex := 0 } true (by decide)

/-- C9 (counterexample): on a batch built by `newBatch` (empty, cursor
`-1`), calling `Next` twice — the second call after `Next` has already
returned false — leaves the cursor at `1 > 0 = len(events)`, so the
claimed invariant `-1 ≤ cursor ≤ len(events)` does not hold at all
times for every `reset`/`append`/`Next` sequence. -/
theorem cursor_inv_cex :
    (runOps (newBatch 3 0 5 0) [BatchOp.next, BatchOp.next]).map cursorInvB =
      some false := by
  decide

/-- A `Next` call that returns (rather than panicking) was made from a
cursor `≥ -1`. -/
theorem next_some_cursor (b : Batch) (pr : Batch × Bool)
    (h : b.next = some pr) : -1 ≤ b.iteratorIndex := by
  unfold Batch.next at h
  by_cases hneg : b.iteratorIndex + 1 < 0
  · rw [if_pos hneg] at h
    exact absurd h (by simp)
  · omega

/-- From any cursor `≥ -1`, every sequence of `reset`, `append` and
`Next` operations runs without faulting and keeps the cursor `≥ -1`. -/
theorem runOps_cursor_ge (ops : List BatchOp) :
    ∀ b : Batch, -1 ≤ b.iteratorIndex →
      ∃ bf, runOps (some b) ops = some bf ∧ -1 ≤ bf.iteratorIndex := by
  induction ops with
  | nil => exact fun b hb => ⟨b, rfl, hb⟩
  | cons op rest ih =>
    intro b hb
    cases op with
    | reset now =>
      obtain ⟨bf, h1, h2⟩ := ih (b.reset now) (by simp [Batch.reset])
      exact ⟨bf, by simpa [runOps, applyOp] using h1, h2⟩
    | append e =>
      obtain ⟨bf, h1, h2⟩ := ih (b.append e) (by simpa [Batch.append] using hb)
      exact ⟨bf, by simpa [runOps, applyOp] using h1, h2⟩
    | next =>
      have hnx := next_eq b hb
      obtain ⟨bf, h1, h2⟩ := ih
        { b with iteratorIndex :=
            ((scanFrom b.events (b.iteratorIndex + 1).toNat : Nat) : Int) }
        (by dsimp only; omega)
      refine ⟨bf, ?_, h2⟩
      simpa [runOps, applyOp, hnx] using h1

/-- C9 (amended): `-1 ≤ cursor` holds at all times — every sequence of
`reset`, `append` and `Next` operations from a cursor `≥ -1` runs
without faulting and ends with a cursor `≥ -1`; `reset` establishes
`-1 ≤ cursor ≤ len(events)` and `append` preserves it; a `Next` call
keeps `cursor ≤ len(events)` whenever it starts from
`cursor < len(events)` — that is, as long as `Next` has not yet
returned false — while from every state with `cursor ≥ len(events)`
(exactly the states reached once `Next` has returned false) each
further `Next` call pushes the cursor strictly beyond `len(events)`. -/
theorem cursor_inv_amended (b0 : Batch) (h0 : -1 ≤ b0.iteratorIndex)
    (ops : List BatchOp) (b : Batch) (now : Int) (e : Event) (b2 : Batch)
    (r : Bool) :
    (∃ bf, runOps (some b0) ops = some bf ∧ -1 ≤ bf.iteratorIndex) ∧
    cursorInvB (b.reset now) = true ∧
    (-1 ≤ b.iteratorIndex → b.iteratorIndex ≤ (b.events.length : Int) →
      cursorInvB (b.append e) = true) ∧
    (b.next = some (b2, r) → -1 ≤ b2.iteratorIndex ∧
      (b.iteratorIndex < (b.events.length : Int) →
        b2.iteratorIndex ≤ (b2.events.length : Int))) ∧
    ((b.events.length : Int) ≤ b.iteratorIndex → b.next = some (b2, r) →
      (b.events.length : Int) < b2.iteratorIndex) := by
  refine ⟨runOps_cursor_ge ops b0 h0, by simp [cursorInvB, Batch.reset], ?_, ?_, ?_⟩
  · intro hlo hhi
    simp only [cursorInvB, Batch.append, Bool.and_eq_true, decide_eq_true_eq]
    refine ⟨hlo, ?_⟩
    simp only [List.length_append, List.length_cons, List.length_nil]
    push_cast
    omega
  · intro h
    have hfld := next_fields h
    have hlo := next_some_cursor b (b2, r) h
    constructor
    · rw [hfld.2.2.1]; omega
    · intro hin
      rw [hfld.2.2.1, hfld.1]
      have hle := scanFrom_le b.events (b.iteratorIndex + 1).toNat (by omega)
      omega
  · intro hge h
    have hfld := next_fields h
    have hpast := scanFrom_past b.events (b.iteratorIndex + 1).toNat (by omega)
    rw [hfld.2.2.1, hpast]
    omega

/-- A concrete instance for the amended cursor invariant, on the empty
`newBatch`-built batch with cursor `-1` and the two-`Next` run of the
counterexample. -/
theorem cursor_inv_amended_witness :
    (∃ bf, runOps (some bN) [BatchOp.next, BatchOp.next] = some bf ∧
      -1 ≤ bf.iteratorIndex) ∧
    cursorInvB (bN.reset 7) = true ∧
    (-1 ≤ bN.iteratorIndex → bN.iteratorIndex ≤ (bN.events.length : Int) →
      cursorInvB (bN.append { Size := 2, IsChildParentKind := false }) = true) ∧
    (bN.next = some ({ bN with iteratorIndex := 0 }, false) →
      -1 ≤ ({ bN with iteratorIndex := 0 } : Batch).iteratorIndex ∧
      (bN.iteratorIndex < (bN.events.length : Int) →
        ({ bN with iteratorIndex := 0 } : Batch).iteratorIndex ≤
          ((({ bN with iteratorIndex := 0 } : Batch)).events.length : Int))) ∧
    ((bN.events.length : Int) ≤ bN.iteratorIndex →
      bN.next = some ({ bN with iteratorIndex := 0 }, false) →
      (bN.events.length : Int) < ({ bN with iteratorIndex := 0 } : Batch).iteratorIndex) :=
  cursor_inv_amended bN (by decide) [BatchOp.next, BatchOp.next] bN 7
    { Size := 2, IsChildParentKind := false } { bN with iteratorIndex := 0 } false

/-- C10: `Value()` indexes `events[iteratorIndex]` without a bounds
check.  When the most recent `Next` returned true the index is within
`[0, len(events))` and `Value` returns that (non-structural) event;
when the cursor is `-1` (fresh reset) or `Next` has just returned
false (cursor at or past `len(events)`), the access is out of bounds
(a Go panic, modelled as `none`). -/
theorem value_bounds (b b2 : Batch) (r : Bool) (h : b.next = some (b2, r))
    (c : Batch) (hc : c.iteratorIndex = -1) :
    (r = true → 0 ≤ b2.iteratorIndex ∧
      b2.iteratorIndex < (b2.events.length : Int) ∧
      b2.value = b2.events[b2.iteratorIndex.toNat]? ∧
      (b2.value).map (fun e => !e.IsChildParentKind) = some true) ∧
    (r = false → b2.value = none) ∧
    c.value = none := by
  have hfld := next_fields h
  have hnonneg : (0 : Int) ≤ b2.iteratorIndex := by rw [hfld.2.2.1]; omega
  refine ⟨?_, ?_, ?_⟩
  · intro hr
    subst hr
    have hlt : scanFrom b.events (b.iteratorIndex + 1).toNat < b.events.length :=
      of_decide_eq_true hfld.2.2.2.symm
    refine ⟨hnonneg, ?_, ?_, ?_⟩
    · rw [hfld.2.2.1, hfld.1]
      exact_mod_cast hlt
    · unfold Batch.value
      rw [if_neg (by omega)]
    · unfold Batch.value
      rw [if_neg (by omega), hfld.1, hfld.2.2.1,
        show (((scanFrom b.events (b.iteratorIndex + 1).toNat : Nat) : Int)).toNat =
          scanFrom b.events (b.iteratorIndex + 1).toNat from by omega,
        List.getElem?_eq_getElem hlt]
      have hns := scanFrom_getElem? b.events ((b.iteratorIndex + 1).toNat)
        (b.events[scanFrom b.events (b.iteratorIndex + 1).toNat])
        (List.getElem?_eq_getElem hlt)
      simp [hns]
  · intro hr
    subst hr
    have hge : b.events.length ≤ scanFrom b.events (b.iteratorIndex + 1).toNat :=
      Nat.le_of_not_lt (of_decide_eq_false hfld.2.2.2.symm)
    unfold Batch.value
    rw [if_neg (by omega), hfld.1, hfld.2.2.1]
    refine List.getElem?_eq_none ?_
    omega
  · unfold Batch.value
    rw [if_pos (by omega)]

/-- Concrete instance for `value_bounds`: after the first `Next` on the
three-event batch, `Value` returns the first (non-structural) event;
a freshly reset cursor makes `Value` panic. -/
theorem value_bounds_witness :
    ((true : Bool) = true → 0 ≤ ({ bC7 with iteratorIndex := 0 } : Batch).iteratorIndex ∧
      ({ bC7 with iteratorIndex := 0 } : Batch).iteratorIndex <
        ((({ bC7 with iteratorIndex := 0 } : Batch)).events.length : Int) ∧
      ({ bC7 with iteratorIndex := 0 } : Batch).value =
        (({ bC7 with iteratorIndex := 0 } : Batch)).events[
          (({ bC7 with iteratorIndex := 0 } : Batch)).iteratorIndex.toNat]? ∧
      (({ bC7 with iteratorIndex := 0 } : Batch).value).map
        (fun e => !e.IsChildParentKind) = some true) ∧
    ((true : Bool) = false → ({ bC7 with iteratorIndex := 0 } : Batch).value = none) ∧
    bC7.value = none :=
  value_bounds bC7 { bC7 with iteratorIndex := 0 } true (by decide) bC7 rfl

/-- `0, …, n` extends `0, …, n-1` by `n`. -/
theorem rangeInt_succ (n : Int) (h : 0 ≤ n) :
    rangeInt (n + 1) = rangeInt n ++ [n] := by
  unfold rangeInt
  rw [show (n + 1).toNat = n.toNat + 1 from by omega,
    show n.toNat + 1 = (n.toNat).succ from rfl, List.range_succ, List.map_append]
  simp only [List.map_cons, List.map_nil]
  congr 2
  · exact Int.toNat_of_nonneg h

/-- Sequence-assignment invariant of the admission state: `outSeq`
counts the sealed batches and their `seq` fields read `0, 1, 2, …` in
seal order. -/
def admSeqInv (s : AdmState) : Prop :=
  s.outSeq = (s.sealedB.length : Int) ∧ s.sealedB.map Batch.seq = rangeInt s.outSeq

/-- Every admission step preserves the sequence-assignment invariant. -/
theorem admStep_seqInv (mc mb tmo : Int) (s : AdmState) (op : AdmOp)
    (h : admSeqInv s) : admSeqInv (admStep mc mb tmo s op) := by
  obtain ⟨h1, h2⟩ := h
  have key : ∀ (b : Batch) (now : Int), admSeqInv (trySendBatchAndUnlock s b now) := by
    intro b now
    unfold trySendBatchAndUnlock
    by_cases hr : b.isReady now = true
    · rw [if_pos hr]
      constructor
      · simp only [List.length_append, List.length_cons, List.length_nil]
        push_cast
        omega
      · simp only [List.map_append, List.map_cons, List.map_nil]
        rw [h2, h1, ← rangeInt_succ _ (by omega)]
    · rw [if_neg hr]
      exact ⟨h1, h2⟩
  cases op with
  | add e now => exact key _ now
  | tick now => exact key _ now

/-- C4: `outSeq` starts at 0 and counts the seals; the `seq` values of
the batches pushed to the full queue are exactly `0, 1, 2, …` in seal
order — no gaps, no repeats — each batch receiving the pre-increment
value of `outSeq`. -/
theorem seq_density (mc mb tmo : Int) (ops : List AdmOp) :
    (runAdm mc mb tmo ops).sealedB.map Batch.seq =
      rangeInt (runAdm mc mb tmo ops).outSeq ∧
    (runAdm mc mb tmo ops).outSeq = ((runAdm mc mb tmo ops).sealedB.length : Int) := by
  suffices h : ∀ (s : AdmState), admSeqInv s →
      admSeqInv (ops.foldl (admStep mc mb tmo) s) by
    have h0 := h admInit ⟨rfl, rfl⟩
    exact ⟨h0.2, h0.1⟩
  induction ops with
  | nil => intro s hs; exact hs
  | cons op rest ih =>
    intro s hs
    exact ih _ (admStep_seqInv mc mb tmo s op hs)

/-- Invariant of the batch sitting in the open slot: it carries the
fixed configuration, it is strictly below every enabled size trigger
(otherwise the `Add` or tick that produced it would have sealed it),
and all its events have non-negative sizes. -/
def openOK (mc mb : Int) (b : Batch) : Prop :=
  b.maxSizeCount = mc ∧ b.maxSizeBytes = mb ∧
  (mc ≠ 0 → (b.events.length : Int) < mc) ∧
  (mb ≠ 0 → b.eventsSize < mb) ∧
  (∀ e ∈ b.events, 0 ≤ e.Size)

/-- The size bounds claimed for every sealed batch. -/
def sealedOK (mc mb : Int) (sb : Batch) : Prop :=
  (0 < mc → (sb.events.length : Int) ≤ mc) ∧
  (0 < mb → ∃ lastE, sb.events.getLast? = some lastE ∧
    sb.eventsSize ≤ mb + lastE.Size)

/-- Joint admission invariant: the open batch (if any) satisfies
`openOK` and every sealed batch satisfies `sealedOK`. -/
def admOK (mc mb : Int) (s : AdmState) : Prop :=
  (∀ b, s.openB = some b → openOK mc mb b) ∧ ∀ sb ∈ s.sealedB, sealedOK mc mb sb

/-- `trySendBatchAndUnlock` preserves the joint invariant, given that
the candidate batch is sealable when ready and open-sound when not. -/
theorem trySend_OK (mc mb : Int) (s : AdmState) (b : Batch) (now : Int)
    (hrdy : b.isReady now = true → sealedOK mc mb b)
    (hnrdy : b.isReady now = false → openOK mc mb b)
    (hseal : ∀ sb ∈ s.sealedB, sealedOK mc mb sb) :
    admOK mc mb (trySendBatchAndUnlock s b now) := by
  unfold trySendBatchAndUnlock
  by_cases hr : b.isReady now = true
  · rw [if_pos hr]
    constructor
    · intro b2 h
      exact absurd h (by simp)
    · intro sb hsb
      rcases List.mem_append.mp hsb with h | h
      · exact hseal sb h
      · have hsb2 : sb = { b with seq := s.outSeq } := by simpa using h
        subst hsb2
        exact hrdy hr
  · rw [if_neg hr]
    constructor
    · intro b2 h
      have hb2 : b2 = b := by simpa using h.symm
      subst hb2
      exact hnrdy (by simpa using hr)
    · exact hseal

/-- The batch produced by `getBatch` satisfies the open invariant. -/
theorem getBatch_OK (mc mb tmo : Int) (hmc : 0 ≤ mc) (hmb : 0 ≤ mb)
    (s : AdmState) (now : Int)
    (hopen : ∀ b, s.openB = some b → openOK mc mb b) :
    openOK mc mb (getBatch mc mb tmo s now) := by
  unfold getBatch
  cases hsb : s.openB with
  | some b => exact hopen b hsb
  | none =>
    refine ⟨rfl, rfl, ?_, ?_, ?_⟩
    · intro h
      show ((List.length [] : Nat) : Int) < mc
      simp only [List.length_nil, Nat.cast_zero]
      omega
    · intro h
      show (0 : Int) < mb
      omega
    · intro e he
      exact absurd he (by simp [freshBatch, Batch.reset])

/-- Every admission step with a non-negative-size event preserves the
joint invariant. -/
theorem admStep_OK (mc mb tmo : Int) (hmc : 0 ≤ mc) (hmb : 0 ≤ mb)
    (s : AdmState) (op : AdmOp) (hop : admOpSizeOK op = true)
    (h : admOK mc mb s) : admOK mc mb (admStep mc mb tmo s op) := by
  obtain ⟨hopen, hseal⟩ := h
  cases op with
  | add e now =>
    have he : 0 ≤ e.Size := by simpa [admOpSizeOK] using hop
    have hb0 := getBatch_OK mc mb tmo hmc hmb s now hopen
    refine trySend_OK mc mb s _ now ?_ ?_ hseal
    · intro _
      constructor
      · intro hmc'
        show ((getBatch mc mb tmo s now).events ++ [e]).length ≤ (mc : Int)
        rw [List.length_append, List.length_cons, List.length_nil]
        push_cast
        have := hb0.2.2.1 (by omega)
        omega
      · intro hmb'
        refine ⟨e, ?_, ?_⟩
        · exact List.getLast?_concat _
        · show (getBatch mc mb tmo s now).eventsSize + e.Size ≤ mb + e.Size
          have := hb0.2.2.2.1 (by omega)
          omega
    · intro hnr
      have hh : ¬(((getBatch mc mb tmo s now).append e).isReady now = true) := by
        simp [hnr]
      rw [isReady_true_iff] at hh
      push_neg at hh
      refine ⟨hb0.1, hb0.2.1, ?_, ?_, ?_⟩
      · intro hmc'
        have h1 := hh.1
        rw [show ((getBatch mc mb tmo s now).append e).maxSizeCount = mc from hb0.1] at h1
        exact h1 hmc'
      · intro hmb'
        have h2 := hh.2.1
        rw [show ((getBatch mc mb tmo s now).append e).maxSizeBytes = mb from hb0.2.1] at h2
        exact h2 hmb'
      · intro e' he'
        rcases List.mem_append.mp he' with hmem | hmem
        · exact hb0.2.2.2.2 e' hmem
        · have : e' = e := by simpa using hmem
          subst this
          exact he
  | tick now =>
    have hb0 := getBatch_OK mc mb tmo hmc hmb s now hopen
    refine trySend_OK mc mb s _ now ?_ ?_ hseal
    · intro hr
      constructor
      · intro hmc'
        have := hb0.2.2.1 (by omega)
        omega
      · intro hmb'
        have hne : (getBatch mc mb tmo s now).events ≠ [] := by
          intro hnil
          have hready := (isReady_true_iff _ now).mp hr
          rw [hnil, hb0.1, hb0.2.1] at hready
          simp only [List.length_nil, Nat.cast_zero] at hready
          have hsz := hb0.2.2.2.1 (by omega)
          omega
        obtain ⟨l2, a, hconcat⟩ :=
          (List.eq_nil_or_concat (getBatch mc mb tmo s now).events).resolve_left hne
        refine ⟨a, ?_, ?_⟩
        · show (getBatch mc mb tmo s now).events.getLast? = some a
          rw [hconcat, List.concat_eq_append]
          exact List.getLast?_concat _
        · have ha : 0 ≤ a.Size :=
            hb0.2.2.2.2 a (by
              rw [hconcat, List.concat_eq_append]
              exact List.mem_append_right _ (by simp))
          have hsz := hb0.2.2.2.1 (by omega)
          omega
    · intro _
      exact hb0

/-- The joint invariant holds along every admission run whose `Add`
events all have non-negative sizes. -/
theorem foldl_admOK (mc mb tmo : Int) (hmc : 0 ≤ mc) (hmb : 0 ≤ mb) :
    ∀ (ops : List AdmOp), (∀ op ∈ ops, admOpSizeOK op = true) →
      ∀ s : AdmState, admOK mc mb s →
        admOK mc mb (ops.foldl (admStep mc mb tmo) s) := by
  intro ops
  induction ops with
  | nil => exact fun _ s hs => hs
  | cons op rest ih =>
    intro hsz s hs
    exact ih (fun o ho => hsz o (List.mem_cons_of_mem _ ho)) _
      (admStep_OK mc mb tmo hmc hmb s op (hsz op (List.mem_cons_self op rest)) hs)

/-- C6: for validated limits and events of non-negative size, every
batch sealed over any sequence of `Add` calls and heartbeat ticks
satisfies `len(events) ≤ maxSizeCount` when the count limit is set
(positive), and `bytes ≤ maxSizeBytes + Size(last event)` when the
byte limit is set — the final appended event may push the byte total
over the limit, but the count limit is never exceeded. -/
theorem sealed_size_bounds (mc mb tmo : Int) (ops : List AdmOp)
    (hmc : 0 ≤ mc) (hmb : 0 ≤ mb)
    (hsz : ∀ op ∈ ops, admOpSizeOK op = true) :
    ∀ sb ∈ (runAdm mc mb tmo ops).sealedB,
      (0 < mc → (sb.events.length : Int) ≤ mc) ∧
      (0 < mb → ∃ lastE, sb.events.getLast? = some lastE ∧
        sb.eventsSize ≤ mb + lastE.Size) := by
  have h := foldl_admOK mc mb tmo hmc hmb ops hsz admInit
    ⟨fun b hb => absurd hb (by simp [admInit]), fun sb hsb => absurd hsb (by simp [admInit])⟩
  exact h.2

/-- The single batch sealed by the byte-trigger scenario
(`maxSizeBytes = 10`, three events of size 4). -/
def sbC6 : Batch :=
  { events := [{ Size := 4, IsChildParentKind := false },
               { Size := 4, IsChildParentKind := false },
               { Size := 4, IsChildParentKind := false }],
    iteratorIndex := -1, eventsSize := 12, seq := 0, timeout := 5,
    startTime := 0, maxSizeCount := 0, maxSizeBytes := 10 }

theorem sealed_size_bounds_witness :
    (0 < (0 : Int) → (sbC6.events.length : Int) ≤ 0) ∧
    (0 < (10 : Int) → ∃ lastE, sbC6.events.getLast? = some lastE ∧
      sbC6.eventsSize ≤ 10 + lastE.Size) :=
  sealed_size_bounds 0 10 5
    [AdmOp.add { Size := 4, IsChildParentKind := false } 0,
     AdmOp.add { Size := 4, IsChildParentKind := false } 0,
     AdmOp.add { Size := 4, IsChildParentKind := false } 0]
    (by decide) (by decide) (by decide) sbC6 (by decide)

/-- Along any run of the commit gate started with `commitSeq = 0` and
an empty history, the completed commits are exactly `0, …, commitSeq-1`
in that order. -/
theorem gate_history (p0 : List Int) (s : GateState)
    (h : GateReach { commitSeq := 0, pending := p0, history := [] } s) :
    s.history = rangeInt s.commitSeq ∧ 0 ≤ s.commitSeq := by
  induction h with
  | refl => exact ⟨rfl, le_refl 0⟩
  | step hreach hstep ih =>
    obtain ⟨ih1, ih2⟩ := ih
    cases hstep with
    | commit hq hpass =>
      refine ⟨?_, by dsimp only; omega⟩
      dsimp only
      rw [ih1, rangeInt_succ _ ih2, hpass]

/-- C1: in every reachable state of the commit gate, a worker holding
the batch with sequence number `S ≥ 1` passes its wait and runs its
commit section only when `commitSeq` equals `S`, which happens only
after the commit of the batch with sequence number `S - 1` has
completed (it is the most recent entry of the commit history). -/
theorem commit_in_seal_order (p0 : List Int) (s t : GateState) (S : Int)
    (hreach : GateReach { commitSeq := 0, pending := p0, history := [] } s)
    (hstep : GateStep s S t) (hS : 1 ≤ S) :
    s.commitSeq = S ∧ s.history.getLast? = some (S - 1) := by
  have hinv := gate_history p0 s hreach
  cases hstep with
  | commit hq hpass =>
    refine ⟨hpass, ?_⟩
    rw [hinv.1, hpass]
    unfold rangeInt
    rw [show S.toNat = (S.toNat - 1) + 1 from by omega,
      show (S.toNat - 1) + 1 = (S.toNat - 1).succ from rfl,
      List.range_succ, List.map_append]
    simp only [List.map_cons, List.map_nil]
    rw [List.getLast?_concat]
    congr 1
    simp only [Int.ofNat_eq_coe]
    omega

theorem commit_in_seal_order_witness :
    ({ commitSeq := 1, pending := [1], history := [0] } : GateState).commitSeq = 1 ∧
    ({ commitSeq := 1, pending := [1], history := [0] } : GateState).history.getLast? =
      some ((1 : Int) - 1) := by
  have h0 : GateStep { commitSeq := 0, pending := [0, 1], history := [] } 0
      { commitSeq := 1, pending := [1], history := [0] } :=
    GateStep.commit { commitSeq := 0, pending := [0, 1], history := [] } 0
      (by decide) rfl
  have h1 : GateStep { commitSeq := 1, pending := [1], history := [0] } 1
      { commitSeq := 2, pending := [], history := [0, 1] } :=
    GateStep.commit { commitSeq := 1, pending := [1], history := [0] } 1
      (by decide) rfl
  exact commit_in_seal_order [0, 1]
    { commitSeq := 1, pending := [1], history := [0] }
    { commitSeq := 2, pending := [], history := [0, 1] } 1
    (GateReach.step GateReach.refl h0) h1 (by norm_num)

/-- A one-event batch with seal seq 0, as a worker would receive it. -/
def cBatch1 : Batch :=
  { events := [{ Size := 1, IsChildParentKind := false }], iteratorIndex := -1,
    eventsSize := 1, seq := 0, timeout := 5, startTime := 0,
    maxSizeCount := 1, maxSizeBytes := 0 }

/-- The action trace `commitBatch` produces for `cBatch1` from
`commitSeq = 0`. -/
def c3TraceEx : List CAction :=
  [CAction.waitPass 0, CAction.incSeq,
   CAction.commitEv { Size := 1, IsChildParentKind := false },
   CAction.broadcast, CAction.toFree]

/-- C3 (counterexample): committing a one-event batch, the code
increments `commitSeq` *before* the `Controller.Commit` call (the
increment sits at trace position 1, the commit at position 2), so
`commitBatch` does not perform the commits and *then* increment the
counter as claimed. -/
theorem commit_then_inc_cex :
    (commitBatch { commitSeq := 0, committed := [], free := [] } [] cBatch1).map
      (fun r => r.2.2) = some c3TraceEx ∧
    ¬ commitsBeforeInc c3TraceEx := by
  constructor
  · decide
  · intro h
    have := h ⟨1, by decide⟩ ⟨2, by decide⟩ (by decide) (by decide)
    exact absurd this (by decide)

/-- C3 (amended): whenever `commitBatch` returns (i.e. its wait has
passed, which requires `commitSeq = batch.seq`), it has invoked
`Controller.Commit` exactly once per event of the batch — all events
in append order, structural ones included, none skipped — incremented
the next-commit counter by exactly 1 (the increment precedes the
commits, inside the same critical section), and afterwards returned
the batch (carrying the worker's old spare slice) to the free queue. -/
theorem commit_batch_effects (s : CommitState) (events : List Event)
    (batch : Batch) (st2 : CommitState) (ret : List Event) (tr : List CAction)
    (h : commitBatch s events batch = some (st2, ret, tr)) :
    s.commitSeq = batch.seq ∧
    st2.commitSeq = s.commitSeq + 1 ∧
    st2.committed = s.committed ++ batch.events ∧
    st2.free = s.free ++ [{ batch with events := events }] ∧
    ret = batch.events ∧
    tr = CAction.waitPass batch.seq :: CAction.incSeq ::
      (batch.events.map CAction.commitEv) ++ [CAction.broadcast, CAction.toFree] := by
  unfold commitBatch at h
  by_cases hg : s.commitSeq = batch.seq
  · rw [if_pos hg] at h
    simp only [Option.some.injEq, Prod.mk.injEq] at h
    obtain ⟨h1, h2, h3⟩ := h
    exact ⟨hg, by rw [← h1], by rw [← h1], by rw [← h1], h2.symm, h3.symm⟩
  · rw [if_neg hg] at h
    exact absurd h (by simp)

theorem commit_batch_effects_witness :
    ({ commitSeq := 0, committed := [], free := [] } : CommitState).commitSeq =
      cBatch1.seq ∧
    ({ commitSeq := 1,
       committed := [{ Size := 1, IsChildParentKind := false }],
       free := [{ cBatch1 with events := [] }] } : CommitState).commitSeq =
      ({ commitSeq := 0, committed := [], free := [] } : CommitState).commitSeq + 1 ∧
    ({ commitSeq := 1,
       committed := [{ Size := 1, IsChildParentKind := false }],
       free := [{ cBatch1 with events := [] }] } : CommitState).committed =
      ({ commitSeq := 0, committed := [], free := [] } : CommitState).committed ++
        cBatch1.events ∧
    ({ commitSeq := 1,
       committed := [{ Size := 1, IsChildParentKind := false }],
       free := [{ cBatch1 with events := [] }] } : CommitState).free =
      ({ commitSeq := 0, committed := [], free := [] } : CommitState).free ++
        [{ cBatch1 with events := [] }] ∧
    cBatch1.events = cBatch1.events ∧
    c3TraceEx = CAction.waitPass cBatch1.seq :: CAction.incSeq ::
      (cBatch1.events.map CAction.commitEv) ++ [CAction.broadcast, CAction.toFree] :=
  commit_batch_effects { commitSeq := 0, committed := [], free := [] } [] cBatch1
    { commitSeq := 1,
      committed := [{ Size := 1, IsChildParentKind := false }],
      free := [{ cBatch1 with events := [] }] }
    cBatch1.events c3TraceEx (by decide)

end FileD
